import Mathlib

/-!
Verification of the llms.txt generation core of typedoc-plugin-llms-txt.

Strings from the TypeScript source are modelled as `List Char`; every
definition below is a direct shallow embedding of the corresponding function
in src/generator.ts or src/options.ts.  External collaborators (the TypeDoc
router, the locale comparator behind String.prototype.localeCompare, the
file system contents) are passed in as explicit parameters.
-/

namespace LlmsTxt

/-- Convert a Lean string literal to the `List Char` model. -/
def str (s : String) : List Char := s.toList

/-- The single-quote character, written numerically. -/
def squote : Char := Char.ofNat 39

/-- The double-quote character. -/
def dquote : Char := Char.ofNat 34

/-- Whitespace predicate modelling the whitespace classes used by the
JavaScript runtime in `String.prototype.trim` and `\s` (restricted to the
four ASCII whitespace characters that the claims exercise). -/
def isWs (c : Char) : Bool := c.isWhitespace

/-- `value.trim()`: remove leading and trailing whitespace. -/
def trimChars (l : List Char) : List Char :=
  ((l.dropWhile isWs).reverse.dropWhile isWs).reverse

/-- `baseUrl` join from src/generator.ts (`joinUrl`): empty base returns the
path unchanged; otherwise one trailing slash of the base and one leading
slash of the path are stripped and the parts joined with a single slash. -/
def joinUrl (baseUrl urlPath : List Char) : List Char :=
  if baseUrl = [] then urlPath
  else
    let normalizedBase :=
      if baseUrl.getLast? = some (Char.ofNat 47) then baseUrl.dropLast else baseUrl
    let normalizedPath :=
      match urlPath with
      | c :: rest => if c = Char.ofNat 47 then rest else urlPath
      | [] => urlPath
    normalizedBase ++ Char.ofNat 47 :: normalizedPath

/-- `s.split(c)` of JavaScript on a single-character separator. -/
def splitOnChar (c : Char) : List Char → List (List Char)
  | [] => [[]]
  | x :: xs =>
    match splitOnChar c xs with
    | [] => [[]]
    | h :: t => if x = c then [] :: h :: t else (x :: h) :: t

/-- `l.getLast? = some c`, i.e. the JavaScript `str.endsWith(c)` for a
single-character suffix. -/
def endsWithChar (c : Char) (l : List Char) : Bool :=
  match l.getLast? with
  | some x => x = c
  | none => false

/-! ### The reflection tree

`DeclarationReflection` and `ProjectReflection` are modelled by a single
rose tree of named nodes; a missing `children` array is modelled by `[]`. -/

/-- A TypeDoc document reflection: its `name`, the `category` string of its
parsed frontmatter when present, and the joined text of an `@category`
block tag when present. -/
structure DocumentReflection where
  name : List Char
  frontmatterCategory : Option (List Char)
  blockTagContent : Option (List Char)
deriving DecidableEq

/-- A TypeDoc reflection node: name, child reflections and attached
document reflections. -/
inductive Reflection where
  | mk (name : List Char) (children : List Reflection)
      (documents : List DocumentReflection)

/-- Name of a reflection. -/
def Reflection.name : Reflection → List Char
  | .mk n _ _ => n

/-- Children of a reflection. -/
def Reflection.children : Reflection → List Reflection
  | .mk _ c _ => c

/-- Documents attached to a reflection. -/
def Reflection.documents : Reflection → List DocumentReflection
  | .mk _ _ d => d

/-- `children.find(c => c.name === nm)`. -/
def findChild (nm : List Char) (cs : List Reflection) : Option Reflection :=
  cs.find? (fun c => c.name == nm)

/-- The descent of `resolveDeclarations` through a dot-separated symbol
path: each segment must name a direct child of the current node; a missing
segment fails the whole descent. -/
def descendParts (r : Reflection) : List (List Char) → Option Reflection
  | [] => some r
  | p :: ps =>
    match findChild p r.children with
    | none => none
    | some c => descendParts c ps

/-- The reference-resolution core of `resolveDeclarations`
(src/generator.ts lines 440-465): a reference ending in a bang is a
root-level lookup of everything before the final bang; otherwise a
reference containing a bang is split at bangs, the first part naming a
root child and the second part being a dot-separated descent path; a
reference with no bang never resolves. -/
def resolveRef (project : Reflection) (ref : List Char) : Option Reflection :=
  if endsWithChar '!' ref then
    findChild ref.dropLast project.children
  else if ref.contains '!' then
    match splitOnChar '!' ref with
    | moduleName :: symbolPath :: _ =>
      match findChild moduleName project.children with
      | none => none
      | some m => descendParts m (splitOnChar '.' symbolPath)
    | _ => none
  else none

/-! ### resolveDeclarations -/

/-- A user-supplied declaration request (`LlmsTxtDeclaration` in
src/options.ts). -/
structure LlmsTxtDeclaration where
  ref : List Char
  label : List Char
  description : Option (List Char)
deriving DecidableEq

/-- A resolved declaration (`ResolvedDeclaration` in src/generator.ts). -/
structure ResolvedDeclaration where
  label : List Char
  url : List Char
  description : Option (List Char)
deriving DecidableEq

/-- The warning message emitted for an unresolved reference. -/
def warnMsg (ref : List Char) : List Char :=
  str ("[llms-txt] Could not resolve declaration reference: ") ++ ref

/-- Resolution of one request: the successful branch of the loop body of
`resolveDeclarations`. -/
def resolveOne (project : Reflection) (router : Reflection → List Char)
    (baseUrl : List Char) (d : LlmsTxtDeclaration) : Option ResolvedDeclaration :=
  match resolveRef project d.ref with
  | some refl =>
      some { label := d.label, url := joinUrl baseUrl (router refl),
             description := d.description }
  | none => none

/-- `resolveDeclarations` (src/generator.ts lines 423-484): iterate the
requests in order; a resolvable reference contributes one resolved
declaration, an unresolvable one contributes one warning naming the raw
reference string.  Returns the resolved list and the warning list. -/
def resolveDeclarations (decls : List LlmsTxtDeclaration) (project : Reflection)
    (router : Reflection → List Char) (baseUrl : List Char) :
    List ResolvedDeclaration × List (List Char) :=
  match decls with
  | [] => ([], [])
  | d :: ds =>
    let rest := resolveDeclarations ds project router baseUrl
    match resolveOne project router baseUrl d with
    | some r => (r :: rest.1, rest.2)
    | none => (rest.1, warnMsg d.ref :: rest.2)

/-! ### Lemmas about the splitting helpers -/

theorem splitOnChar_not_mem (c : Char) (l : List Char) (h : c ∉ l) :
    splitOnChar c l = [l] := by
  induction l with
  | nil => rfl
  | cons x xs ih =>
    have hx : ¬ (x = c) := by rintro rfl; exact h (List.mem_cons_self x xs)
    have hxs : c ∉ xs := fun hm => h (List.mem_cons_of_mem _ hm)
    simp [splitOnChar, ih hxs, hx]

theorem splitOnChar_ne_nil (c : Char) (l : List Char) : splitOnChar c l ≠ [] := by
  cases l with
  | nil => simp [splitOnChar]
  | cons x xs =>
    rw [splitOnChar]
    cases splitOnChar c xs with
    | nil => simp
    | cons h t =>
      by_cases hx : x = c <;> simp [hx]

theorem splitOnChar_append (c : Char) (xs ys : List Char) (h : c ∉ xs) :
    splitOnChar c (xs ++ c :: ys) = xs :: splitOnChar c ys := by
  induction xs with
  | nil =>
    rw [List.nil_append, splitOnChar]
    cases hr : splitOnChar c ys with
    | nil => exact absurd hr (splitOnChar_ne_nil c ys)
    | cons hd t => simp
  | cons x xs ih =>
    have hx : ¬ (x = c) := by rintro rfl; exact h (List.mem_cons_self x xs)
    have hxs : c ∉ xs := fun hm => h (List.mem_cons_of_mem _ hm)
    rw [List.cons_append, splitOnChar, ih hxs]
    simp [hx]

theorem endsWithChar_concat (c : Char) (l : List Char) :
    endsWithChar c (l ++ [c]) = true := by
  simp [endsWithChar, List.getLast?_concat]

theorem getLast?_ne_of_not_mem {c d : Char} {b : List Char}
    (hdc : d ≠ c) (h : c ∉ b) : (d :: b).getLast? ≠ some c := by
  induction b generalizing d with
  | nil => simpa using hdc
  | cons y ys ih =>
    rw [List.getLast?_cons_cons]
    exact ih (fun hyc => h (hyc ▸ List.mem_cons_self y ys))
      (fun hm => h (List.mem_cons_of_mem _ hm))

theorem endsWithChar_false_of {c : Char} {l : List Char}
    (h : l.getLast? ≠ some c) : endsWithChar c l = false := by
  unfold endsWithChar
  cases hg : l.getLast? with
  | none => rfl
  | some x =>
    simp only []
    exact decide_eq_false (fun hxc => h (hxc ▸ hg))

/-- C1: the reference grammar of resolveDeclarations.  A reference
`name!` succeeds exactly when a root-level child named `name` exists; a
reference `name!a.b` succeeds exactly when the root child `name`, its
direct child `a` and the child `b` of `a` all exist, any missing step
failing the whole reference; a reference with no bang never resolves. -/
theorem claim_C1_resolve_grammar (project : Reflection) (name a b : List Char)
    (hnb : '!' ∉ name) (hab : '!' ∉ a) (hbb : '!' ∉ b)
    (had : '.' ∉ a) (hbd : '.' ∉ b) :
    ((resolveRef project (name ++ ['!'])).isSome
        ↔ (findChild name project.children).isSome)
    ∧ ((resolveRef project (name ++ '!' :: (a ++ '.' :: b))).isSome
        ↔ ∃ m ma, findChild name project.children = some m
            ∧ findChild a m.children = some ma
            ∧ (findChild b ma.children).isSome)
    ∧ (∀ ref : List Char, '!' ∉ ref → resolveRef project ref = none) := by
  refine ⟨?_, ?_, ?_⟩
  · rw [resolveRef, if_pos (by simp [endsWithChar_concat]), List.dropLast_concat]
  · have hassoc : name ++ '!' :: (a ++ '.' :: b)
        = (name ++ '!' :: a) ++ '.' :: b := by simp
    have hlast : ((name ++ '!' :: a) ++ '.' :: b).getLast? ≠ some '!' := by
      rw [List.getLast?_append_cons]
      exact getLast?_ne_of_not_mem (by decide) hbb
    have hends : endsWithChar '!' (name ++ '!' :: (a ++ '.' :: b)) = false := by
      rw [hassoc]; exact endsWithChar_false_of hlast
    have hcont : (name ++ '!' :: (a ++ '.' :: b)).contains '!' = true := by
      simp
    have hsplit : splitOnChar '!' (name ++ '!' :: (a ++ '.' :: b))
        = [name, a ++ '.' :: b] := by
      rw [splitOnChar_append _ _ _ hnb,
        splitOnChar_not_mem _ _ (by simp [hab, hbb])]
    have hdots : splitOnChar '.' (a ++ '.' :: b) = [a, b] := by
      rw [splitOnChar_append _ _ _ had, splitOnChar_not_mem _ _ hbd]
    rw [resolveRef, if_neg (by simp [hends]), if_pos (by simp [hcont]), hsplit]
    cases hm : findChild name project.children with
    | none => simp [hm]
    | some m =>
      cases hma : findChild a m.children with
      | none => simp [hm, hma, hdots, descendParts]
      | some ma =>
        cases hmb : findChild b ma.children with
        | none => simp [hm, hma, hmb, hdots, descendParts]
        | some mb => simp [hm, hma, hmb, hdots, descendParts]
  · intro ref href
    have hends : endsWithChar '!' ref = false := by
      refine endsWithChar_false_of (fun hg => ?_)
      rcases List.mem_getLast?_eq_getLast (x := '!') (l := ref) hg with ⟨hne, he⟩
      exact href (he ▸ List.getLast_mem hne)
    have hcont : ¬ (ref.contains '!' = true) := fun hc => href (by simpa using hc)
    rw [resolveRef, if_neg (by simp [hends]), if_neg hcont]

/-- Witness for C1 at a concrete project tree and reference segments. -/
theorem claim_C1_witness :
    (resolveRef (.mk (str ("proj"))
        [.mk (str ("lib")) [.mk (str ("x")) [.mk (str ("y")) [] []] []] []] [])
        (str ("lib!x.y"))).isSome = true := by
  have h := (claim_C1_resolve_grammar
    (.mk (str ("proj"))
      [.mk (str ("lib")) [.mk (str ("x")) [.mk (str ("y")) [] []] []] []] [])
    (str ("lib")) (str ("x")) (str ("y"))
    (by decide) (by decide) (by decide) (by decide) (by decide)).2.1
  have heq : str ("lib") ++ '!' :: (str ("x") ++ '.' :: str ("y"))
      = str ("lib!x.y") := by decide
  rw [heq] at h
  exact h.mpr ⟨.mk (str ("lib")) [.mk (str ("x")) [.mk (str ("y")) [] []] []] [],
    .mk (str ("x")) [.mk (str ("y")) [] []] [], rfl, rfl, rfl⟩

/-- C2: resolveDeclarations maps each request independently, in input
order, to at most one resolved declaration, and emits exactly one warning
naming the raw reference string for each request that fails to resolve. -/
theorem claim_C2_resolve_independent (decls : List LlmsTxtDeclaration)
    (project : Reflection) (router : Reflection → List Char) (baseUrl : List Char) :
    (resolveDeclarations decls project router baseUrl).1
        = decls.filterMap (resolveOne project router baseUrl)
    ∧ (resolveDeclarations decls project router baseUrl).2
        = (decls.filter
            (fun d => (resolveOne project router baseUrl d).isNone)).map
            (fun d => warnMsg d.ref) := by
  induction decls with
  | nil => exact ⟨rfl, rfl⟩
  | cons d ds ih =>
    cases hd : resolveOne project router baseUrl d with
    | none =>
      simp [resolveDeclarations, hd, ih.1, ih.2, List.filterMap_cons,
        List.filter_cons]
    | some r =>
      simp [resolveDeclarations, hd, ih.1, ih.2, List.filterMap_cons,
        List.filter_cons]

/-- C10: the trailing-bang branch takes priority over the contains-bang
branch, so any reference ending in a bang is resolved as a root-level
lookup of the whole prefix before the final bang; in particular `a!b!`
looks up the literal root name `a!b` and never descends into module `a`. -/
theorem claim_C10_trailing_bang (project : Reflection) (name : List Char) :
    resolveRef project (name ++ ['!']) = findChild name project.children
    ∧ ((resolveRef (.mk (str ("proj"))
          [.mk (str ("a!b")) [] [],
           .mk (str ("a")) [.mk (str ("b")) [] []] []] [])
          (str ("a!b!"))).map Reflection.name = some (str ("a!b"))) := by
  constructor
  · rw [resolveRef, if_pos (by simp [endsWithChar_concat]), List.dropLast_concat]
  · decide

/-! ### stripYamlQuotes -/

/-- `stripYamlQuotes` (src/generator.ts lines 95-109): trim the value,
then remove one outer pair of single quotes, or else one outer pair of
double quotes, when the trimmed value starts and ends with that quote and
has length at least two; otherwise return the trimmed value. -/
def stripYamlQuotes (value : List Char) : List Char :=
  let trimmed := trimChars value
  if trimmed.head? = some squote ∧ trimmed.getLast? = some squote
      ∧ 2 ≤ trimmed.length then
    (trimmed.drop 1).dropLast
  else if trimmed.head? = some dquote ∧ trimmed.getLast? = some dquote
      ∧ 2 ≤ trimmed.length then
    (trimmed.drop 1).dropLast
  else trimmed

theorem eq_wrap_of_head_last {a : Char} {l : List Char}
    (h1 : l.head? = some a) (h2 : l.getLast? = some a) (h3 : 2 ≤ l.length) :
    ∃ u, l = a :: u ++ [a] := by
  match l, h3 with
  | x :: y :: rest, _ =>
    have hx : x = a := by simpa using h1
    rw [List.getLast?_cons_cons] at h2
    have hd := List.dropLast_append_getLast? (l := y :: rest) a h2
    exact ⟨(y :: rest).dropLast, by rw [hx]; exact congrArg (List.cons a) hd.symm⟩

/-- C3: stripYamlQuotes trims surrounding whitespace first; a trimmed
value wrapped in one matching pair of single or double quotes has exactly
that outer pair removed with the inner text preserved, and a value not
wrapped in a matching pair is returned verbatim after trimming. -/
theorem claim_C3_strip_quotes (s : List Char) :
    (∀ u, trimChars s = squote :: u ++ [squote] → stripYamlQuotes s = u)
    ∧ (∀ u, trimChars s = dquote :: u ++ [dquote] → stripYamlQuotes s = u)
    ∧ ((¬ ∃ u, trimChars s = squote :: u ++ [squote])
        → (¬ ∃ u, trimChars s = dquote :: u ++ [dquote])
        → stripYamlQuotes s = trimChars s) := by
  have hwrap : ∀ (q : Char) (u : List Char),
      (q :: u ++ [q]).getLast? = some q := by
    intro q u
    rw [show q :: u ++ [q] = (q :: u) ++ [q] from by simp]
    exact List.getLast?_concat _
  refine ⟨?_, ?_, ?_⟩
  · intro u h
    have hcond : (trimChars s).head? = some squote
        ∧ (trimChars s).getLast? = some squote ∧ 2 ≤ (trimChars s).length := by
      rw [h]; exact ⟨rfl, hwrap squote u, by simp⟩
    simp only [stripYamlQuotes]
    rw [if_pos hcond, h]
    simp [List.dropLast_concat]
  · intro u h
    have hq : ¬ (squote = dquote) := by decide
    have hnot : ¬ ((trimChars s).head? = some squote
        ∧ (trimChars s).getLast? = some squote ∧ 2 ≤ (trimChars s).length) := by
      rw [h]; rintro ⟨h1, -, -⟩; exact hq (by simpa using h1.symm)
    have hcond : (trimChars s).head? = some dquote
        ∧ (trimChars s).getLast? = some dquote ∧ 2 ≤ (trimChars s).length := by
      rw [h]; exact ⟨rfl, hwrap dquote u, by simp⟩
    simp only [stripYamlQuotes]
    rw [if_neg hnot, if_pos hcond, h]
    simp [List.dropLast_concat]
  · intro h1 h2
    simp only [stripYamlQuotes]
    rw [if_neg (fun hc => h1 (eq_wrap_of_head_last hc.1 hc.2.1 hc.2.2))]
    rw [if_neg (fun hc => h2 (eq_wrap_of_head_last hc.1 hc.2.1 hc.2.2))]

/-- Witness for C3: a single-quoted value has the outer quotes stripped. -/
theorem claim_C3_witness :
    stripYamlQuotes (squote :: str ("Hello") ++ [squote]) = str ("Hello") :=
  (claim_C3_strip_quotes (squote :: str ("Hello") ++ [squote])).1
    (str ("Hello")) (by decide)

/-! ### extractFrontmatter -/

/-- `p` is a prefix of `l`. -/
def PrefOf (p l : List Char) : Prop := ∃ t, l = p ++ t

/-- `p` occurs as a contiguous substring of `l`. -/
def InfixOf (p l : List Char) : Prop := ∃ s t, l = s ++ p ++ t

theorem isPrefixOf_true_iff (p l : List Char) :
    p.isPrefixOf l = true ↔ PrefOf p l := by
  induction p generalizing l with
  | nil => simp [List.isPrefixOf, PrefOf]
  | cons a as ih =>
    cases l with
    | nil =>
      simp only [List.isPrefixOf, PrefOf]
      constructor
      · intro h; cases h
      · rintro ⟨t, ht⟩; cases ht
    | cons b bs =>
      simp only [List.isPrefixOf, Bool.and_eq_true, beq_iff_eq, ih, PrefOf]
      constructor
      · rintro ⟨rfl, t, rfl⟩; exact ⟨t, rfl⟩
      · rintro ⟨t, ht⟩
        rw [List.cons_append] at ht
        injection ht with h1 h2
        exact ⟨h1.symm, t, h2⟩

/-- The shortest-prefix split of the lazy regex body: find the first
occurrence of `pat` in the list, returning the text before it and the
text after it. -/
def splitFirstSub (pat : List Char) : List Char → Option (List Char × List Char)
  | [] => if pat.isPrefixOf [] then some ([], []) else none
  | x :: xs =>
    if pat.isPrefixOf (x :: xs) then some ([], (x :: xs).drop pat.length)
    else (splitFirstSub pat xs).map (fun p => (x :: p.1, p.2))

theorem splitFirstSub_sound (pat : List Char) (hpat : pat ≠ []) :
    ∀ l b r, splitFirstSub pat l = some (b, r)
      → l = b ++ pat ++ r ∧ ¬ InfixOf pat b := by
  intro l
  induction l with
  | nil =>
    intro b r h
    have hp : pat.isPrefixOf [] = false := by
      cases pat with
      | nil => exact absurd rfl hpat
      | cons p ps => rfl
    rw [splitFirstSub, hp] at h
    cases h
  | cons x xs ih =>
    intro b r h
    rw [splitFirstSub] at h
    by_cases hp : pat.isPrefixOf (x :: xs) = true
    · rw [if_pos hp] at h
      injection h with h'
      injection h' with hb hr
      subst hb; subst hr
      obtain ⟨t, ht⟩ := (isPrefixOf_true_iff pat (x :: xs)).mp hp
      constructor
      · rw [ht, List.drop_left, List.nil_append]
      · rintro ⟨s, t', hst⟩
        have hnil : s ++ pat ++ t' = [] := hst.symm
        rw [List.append_eq_nil, List.append_eq_nil] at hnil
        exact hpat hnil.1.2
    · rw [if_neg hp] at h
      cases hsub : splitFirstSub pat xs with
      | none => rw [hsub] at h; cases h
      | some p =>
        rw [hsub] at h
        obtain ⟨b', r'⟩ := p
        rw [show ((some (b', r')).map (fun p => (x :: p.1, p.2)))
            = some (x :: b', r') from rfl] at h
        injection h with h'
        injection h' with hb hr
        subst hb; subst hr
        obtain ⟨hxs, hinf⟩ := ih b' r' hsub
        constructor
        · rw [hxs]; rfl
        · rintro ⟨s, t, hst⟩
          cases s with
          | nil =>
            apply hp
            rw [isPrefixOf_true_iff]
            rw [List.nil_append] at hst
            refine ⟨t ++ pat ++ r', ?_⟩
            rw [hxs,
              show x :: (b' ++ pat ++ r') = (x :: b') ++ pat ++ r' from by simp,
              hst]
            simp
          | cons y s' =>
            rw [List.cons_append, List.cons_append] at hst
            injection hst with heq1 heq2
            exact hinf ⟨s', t, heq2⟩

theorem not_pre_of_clean_body (pat body rest : List Char) (_hpat : pat ≠ [])
    (hov : ∀ k, 0 < k → k < pat.length → (pat.drop k).isPrefixOf pat = false)
    (hb : body ≠ []) (hinf : ¬ InfixOf pat body) :
    pat.isPrefixOf (body ++ pat ++ rest) = false := by
  rw [← Bool.not_eq_true]
  intro hp
  obtain ⟨t, ht⟩ := (isPrefixOf_true_iff _ _).mp hp
  rw [List.append_assoc] at ht
  by_cases hlen : pat.length ≤ body.length
  · apply hinf
    have htake : body.take pat.length = pat := by
      have h := congrArg (List.take pat.length) ht
      rw [List.take_append_eq_append_take,
        Nat.sub_eq_zero_of_le hlen, List.take_zero, List.append_nil,
        List.take_left] at h
      exact h
    have hbody : body = pat ++ body.drop pat.length := by
      conv_lhs => rw [← List.take_append_drop pat.length body]
      rw [htake]
    exact ⟨[], body.drop pat.length, by rw [List.nil_append]; exact hbody⟩
  · push_neg at hlen
    have hk0 : 0 < body.length := List.length_pos.mpr hb
    have hdrop : pat ++ rest = pat.drop body.length ++ t := by
      have h := congrArg (List.drop body.length) ht
      rw [List.drop_left, List.drop_append_eq_append_drop,
        Nat.sub_eq_zero_of_le (le_of_lt hlen), List.drop_zero] at h
      exact h
    have hlen2 : (pat.drop body.length).length = pat.length - body.length := by
      simp
    have hL : List.take (pat.length - body.length) (pat ++ rest)
        = pat.take (pat.length - body.length) := by
      rw [List.take_append_eq_append_take,
        Nat.sub_eq_zero_of_le (Nat.sub_le _ _), List.take_zero, List.append_nil]
    have hR : List.take (pat.length - body.length) (pat.drop body.length ++ t)
        = pat.drop body.length := by
      rw [← hlen2, List.take_left]
    have htake : pat.take (pat.length - body.length) = pat.drop body.length := by
      have h := congrArg (List.take (pat.length - body.length)) hdrop
      rw [hL, hR] at h
      exact h
    have hpre : (pat.drop body.length).isPrefixOf pat = true := by
      rw [isPrefixOf_true_iff]
      refine ⟨pat.drop (pat.length - body.length), ?_⟩
      conv_lhs => rw [← List.take_append_drop (pat.length - body.length) pat]
      rw [htake]
    simp [hov body.length hk0 hlen] at hpre

theorem splitFirstSub_complete (pat : List Char) (hpat : pat ≠ [])
    (hov : ∀ k, 0 < k → k < pat.length → (pat.drop k).isPrefixOf pat = false) :
    ∀ body rest, ¬ InfixOf pat body
      → splitFirstSub pat (body ++ pat ++ rest) = some (body, rest) := by
  intro body
  induction body with
  | nil =>
    intro rest _
    rw [List.nil_append]
    cases hp : pat with
    | nil => exact absurd hp hpat
    | cons p ps =>
      have hself : (p :: ps).isPrefixOf (p :: (ps ++ rest)) = true := by
        rw [← List.cons_append]
        exact (isPrefixOf_true_iff _ _).mpr ⟨rest, rfl⟩
      have hdrop : (p :: (ps ++ rest)).drop (p :: ps).length = rest := by
        rw [← List.cons_append, List.drop_left]
      rw [List.cons_append, splitFirstSub, if_pos hself, hdrop]
  | cons x body' ih =>
    intro rest hinf
    have hinf' : ¬ InfixOf pat body' := fun hi => by
      obtain ⟨s, t, hst⟩ := hi
      exact hinf ⟨x :: s, t, by rw [hst]; rfl⟩
    have hnp := not_pre_of_clean_body pat (x :: body') rest hpat hov
      (List.cons_ne_nil x body') hinf
    rw [List.cons_append, List.cons_append] at hnp
    rw [List.cons_append, List.cons_append, splitFirstSub]
    rw [if_neg (show ¬ (pat.isPrefixOf (x :: (body' ++ pat ++ rest)) = true)
      from fun hc => by rw [hnp] at hc; cases hc)]
    rw [ih rest hinf']
    rfl

/-- A parsed frontmatter header: each field independently optional. -/
structure Frontmatter where
  title : Option (List Char)
  category : Option (List Char)
deriving DecidableEq

/-- The value captured by the field regex on one line of the header body:
the line must start with the key and have at least one further character;
the group is the rest of the line with leading whitespace removed, or its
final character when the rest is all whitespace. -/
def fieldValue (key : List Char) (line : List Char) : Option (List Char) :=
  if key.isPrefixOf line then
    let rest := line.drop key.length
    if rest = [] then none
    else
      let tl := rest.dropWhile isWs
      if tl = [] then
        match rest.getLast? with
        | some c => some [c]
        | none => none
      else some tl
  else none

/-- First line of the body whose field regex matches. -/
def findField (key : List Char) (body : List Char) : Option (List Char) :=
  (splitOnChar '\n' body).findSome? (fieldValue key)

/-- `extractFrontmatter` (src/generator.ts lines 118-140): the text must
start with a line of three hyphens; the body is everything up to the first
later line starting with three hyphens (the lazy regex
`^---\n([\s\S]*?)\n---`); an empty body is reported as absent frontmatter
because the captured group is falsy; `title` and `category` are parsed
independently from the body lines and unquoted. -/
def extractFrontmatter (content : List Char) : Option Frontmatter :=
  if (str ("---\n")).isPrefixOf content then
    match splitFirstSub (str ("\n---")) (content.drop 4) with
    | some (body, _) =>
      if body = [] then none
      else some { title := (findField (str ("title:")) body).map stripYamlQuotes,
                  category :=
                    (findField (str ("category:")) body).map stripYamlQuotes }
    | none => none
  else none

/-- C4 counterexample: this input opens with a line of exactly three
hyphens, has the body line a, and closes with a line of FOUR hyphens.  The
claim requires a closing line of exactly three hyphens, so it predicts an
absent-frontmatter result here, but the regex only requires the closing
line to begin with three hyphens and the code detects a header. -/
theorem claim_C4_counterexample :
    extractFrontmatter (str ("---\na\n----")) = some ⟨none, none⟩ := by decide

/-- C4 (amended): extractFrontmatter detects a header iff the text begins
with the line of exactly three hyphens, followed by a nonempty body that
contains no newline-plus-three-hyphens occurrence, followed by a newline
and three hyphens; the closing delimiter need only BEGIN with three
hyphens, and an empty body counts as no header.  When no header is
present the result is none rather than an error, and within a detected
header the title and category fields are each independently optional. -/
theorem claim_C4_header_detection :
    (∀ content : List Char,
      (∃ fm, extractFrontmatter content = some fm)
        ↔ ∃ body rest, content = str ("---\n") ++ body ++ str ("\n---") ++ rest
            ∧ body ≠ [] ∧ ¬ InfixOf (str ("\n---")) body)
    ∧ extractFrontmatter (str ("no header")) = none
    ∧ extractFrontmatter (str ("---\ntitle: Hi\n---"))
        = some ⟨some (str ("Hi")), none⟩
    ∧ extractFrontmatter (str ("---\ncategory: Guides\n---"))
        = some ⟨none, some (str ("Guides"))⟩ := by
  have hpat : str ("\n---") ≠ [] := by decide
  have hov : ∀ k, 0 < k → k < (str ("\n---")).length
      → ((str ("\n---")).drop k).isPrefixOf (str ("\n---")) = false := by
    have h : ∀ k, k < (str ("\n---")).length
        → (0 < k → ((str ("\n---")).drop k).isPrefixOf (str ("\n---")) = false) := by
      decide
    exact fun k h1 h2 => h k h2 h1
  refine ⟨?_, by decide, by decide, by decide⟩
  intro content
  constructor
  · rintro ⟨fm, hfm⟩
    by_cases hpre : (str ("---\n")).isPrefixOf content = true
    · cases hsplit : splitFirstSub (str ("\n---")) (content.drop 4) with
      | none =>
        have h0 : extractFrontmatter content = none := by
          rw [extractFrontmatter, if_pos hpre, hsplit]
        rw [h0] at hfm
        cases hfm
      | some p =>
        obtain ⟨body, r⟩ := p
        by_cases hb : body = []
        · subst hb
          have h0 : extractFrontmatter content = none := by
            rw [extractFrontmatter, if_pos hpre, hsplit]
            exact if_pos rfl
          rw [h0] at hfm
          cases hfm
        · obtain ⟨hrem, hinf⟩ := splitFirstSub_sound _ hpat _ _ _ hsplit
          obtain ⟨t, ht⟩ := (isPrefixOf_true_iff _ _).mp hpre
          have hdt : content.drop 4 = t := by
            rw [ht, show (4 : Nat) = (str ("---\n")).length from rfl,
              List.drop_left]
          refine ⟨body, r, ?_, hb, hinf⟩
          rw [ht, ← hdt, hrem]
          simp
    · have h0 : extractFrontmatter content = none := by
        rw [extractFrontmatter, if_neg hpre]
      rw [h0] at hfm
      cases hfm
  · rintro ⟨body, rest, hc, hb, hinf⟩
    have hpre : (str ("---\n")).isPrefixOf content = true :=
      (isPrefixOf_true_iff _ _).mpr
        ⟨body ++ str ("\n---") ++ rest, by rw [hc]; simp⟩
    have hdrop : content.drop 4 = body ++ str ("\n---") ++ rest := by
      rw [hc, show str ("---\n") ++ body ++ str ("\n---") ++ rest
          = str ("---\n") ++ (body ++ str ("\n---") ++ rest) from by simp,
        show (4 : Nat) = (str ("---\n")).length from rfl, List.drop_left]
    refine ⟨{ title := (findField (str ("title:")) body).map stripYamlQuotes,
              category :=
                (findField (str ("category:")) body).map stripYamlQuotes }, ?_⟩
    rw [extractFrontmatter, if_pos hpre, hdrop,
      splitFirstSub_complete _ hpat hov body rest hinf]
    exact if_neg hb

/-- Witness for the amended C4 theorem at a concrete header. -/
theorem claim_C4_witness :
    ∃ fm, extractFrontmatter (str ("---\nx\n---")) = some fm := by
  have hni : ¬ InfixOf (str ("\n---")) (str ("x")) := by
    rintro ⟨s, t, h⟩
    have hl := congrArg List.length h
    simp [str] at hl
    omega
  exact (claim_C4_header_detection.1 (str ("---\nx\n---"))).mpr
    ⟨str ("x"), [], by decide, by decide, hni⟩

/-! ### The content bundle and renderers -/

/-- One discovered document (`DocumentInfo` in src/generator.ts). -/
structure DocumentInfo where
  category : List Char
  path : List Char
  title : List Char
deriving DecidableEq

/-- A section with its documents (`Section` in src/generator.ts). -/
structure Section where
  displayName : List Char
  documents : List DocumentInfo
  name : List Char
  order : Int
deriving DecidableEq

/-- The header part of the content bundle. -/
structure LlmsTxtHeaderContent where
  description : List Char
  features : List (List Char)
  name : List Char
deriving DecidableEq

/-- The full content bundle (`LlmsTxtContent` in src/generator.ts). -/
structure LlmsTxtContent where
  declarations : List ResolvedDeclaration
  header : LlmsTxtHeaderContent
  quickReference : List Char
  sections : List Section
deriving DecidableEq

/-- `lines.join(backslash n)`. -/
def joinLines (ls : List (List Char)) : List Char := List.intercalate ['\n'] ls

/-- `renderSection` (src/generator.ts): a heading line followed by one
bullet per document. -/
def renderSection (s : Section) : List Char :=
  joinLines ((str ("## ") ++ s.displayName)
    :: s.documents.map (fun d =>
        str ("- [") ++ d.title ++ str ("](") ++ d.path ++ str (")")))

/-- `renderHeader` (src/generator.ts): title line, blank line, optional
description blockquote with blank line, optional feature bullets. -/
def renderHeader (h : LlmsTxtHeaderContent) : List Char :=
  let l1 := [str ("# ") ++ h.name, []]
  let l2 := if h.description = [] then l1
    else l1 ++ [str ("> ") ++ h.description, []]
  let l3 := if h.features = [] then l2
    else l2 ++ h.features.map (fun f => str ("- ") ++ f)
  joinLines l3

/-- `renderDeclarations` (src/generator.ts): empty input renders nothing;
otherwise an API heading and one bullet per declaration, with the
description appended when it is present and non-empty. -/
def renderDeclarations (ds : List ResolvedDeclaration) : List Char :=
  if ds = [] then []
  else
    joinLines (str ("## API") :: ds.map (fun d =>
      match d.description with
      | some desc =>
        if desc = [] then str ("- [") ++ d.label ++ str ("](") ++ d.url ++ str (")")
        else str ("- [") ++ d.label ++ str ("](") ++ d.url ++ str ("): ") ++ desc
      | none => str ("- [") ++ d.label ++ str ("](") ++ d.url ++ str (")")))

/-- `renderQuickReference` (src/generator.ts): empty input renders
nothing; otherwise a heading, a blank line and a fenced code block with
the trimmed reference text. -/
def renderQuickReference (q : List Char) : List Char :=
  if q = [] then []
  else
    joinLines [str ("## Quick Reference"), [], str ("```javascript"),
      trimChars q, str ("```")]

/-- `renderSlot` (src/options.ts lines 218-249): the four fixed slots map
to renderer outputs; a slot starting with the section prefix looks up the
single section whose name or displayName equals the remainder and renders
it, or an inline not-found comment; any other slot renders an inline
unknown-slot comment.  The function never fails. -/
def renderSlot (slot : List Char) (content : LlmsTxtContent) : List Char :=
  if slot = str ("declarations") then renderDeclarations content.declarations
  else if slot = str ("header") then renderHeader content.header
  else if slot = str ("quickReference") then
    renderQuickReference content.quickReference
  else if slot = str ("sections") then
    List.intercalate (str ("\n\n")) (content.sections.map renderSection)
  else if (str ("section:")).isPrefixOf slot then
    let categoryName := slot.drop 8
    match content.sections.find? (fun s =>
        s.name == categoryName || s.displayName == categoryName) with
    | some s => renderSection s
    | none => str ("<!-- Section \"") ++ categoryName ++ str ("\" not found -->")
  else str ("<!-- Unknown slot: ") ++ slot ++ str (" -->")

/-! ### The template scanner

The slot pattern of src/options.ts is the regex
backslash-brace-brace (word+ (colon word+)?) brace-brace, applied as a
global left-to-right scan.  `matchSlotAt` decides an anchored match of
that pattern at the head of the list, and the fuelled scanners below walk
the template; the fuel is the template length, which bounds the number of
scan steps because every step consumes at least one character. -/

/-- JavaScript word character: letters, digits, underscore. -/
def isWordChar (c : Char) : Bool := c.isAlpha || c.isDigit || c == '_'

/-- Maximal word-character run at the head of a list, with the rest. -/
def wordRun : List Char → List Char × List Char
  | [] => ([], [])
  | x :: xs =>
    if isWordChar x then
      ((wordRun xs).1.cons x, (wordRun xs).2)
    else ([], x :: xs)

/-- Expect a double closing brace at the head; return what follows. -/
def expectClose : List Char → Option (List Char)
  | c1 :: c2 :: r => if c1 = '\x7d' ∧ c2 = '\x7d' then some r else none
  | _ => none

/-- After the first word run of a slot: either the closing braces follow
immediately, or a colon, a second word run and the closing braces. -/
def closeSlot (tok : List Char) (r : List Char) :
    Option (List Char × List Char) :=
  match expectClose r with
  | some r2 => some (tok, r2)
  | none =>
    match r with
    | c :: r1 =>
      if c = ':' then
        let p2 := wordRun r1
        if p2.1 = [] then none
        else
          match expectClose p2.2 with
          | some r4 => some (tok ++ ':' :: p2.1, r4)
          | none => none
      else none
    | [] => none

/-- Anchored match of the slot pattern at the head of the template,
returning the token and the unconsumed rest. -/
def matchSlotAt : List Char → Option (List Char × List Char)
  | c1 :: c2 :: rest =>
    if c1 = '\x7b' ∧ c2 = '\x7b' then
      let p1 := wordRun rest
      if p1.1 = [] then none else closeSlot p1.1 p1.2
    else none
  | _ => none

/-- Whether a token between double braces is matched by the slot pattern:
a word run, optionally followed by a colon and a second word run. -/
def isSlotToken (l : List Char) : Bool :=
  let p1 := wordRun l
  if p1.1 = [] then false
  else
    match p1.2 with
    | [] => true
    | c :: r1 =>
      if c = ':' then
        let p2 := wordRun r1
        if p2.1 = [] then false else decide (p2.2 = [])
      else false

/-- The scan of `findSlots` (src/options.ts lines 198-208). -/
def findSlotsGo : Nat → List Char → List (List Char)
  | _, [] => []
  | 0, _ => []
  | fuel + 1, x :: xs =>
    match matchSlotAt (x :: xs) with
    | some p => p.1 :: findSlotsGo fuel p.2
    | none => findSlotsGo fuel xs

/-- `findSlots`: every slot token of the template, left to right. -/
def findSlots (template : List Char) : List (List Char) :=
  findSlotsGo template.length template

/-- The scan of `applyTemplate` (src/options.ts lines 259-270): a single
left-to-right pass; a matched slot is replaced by its rendered content and
the scan continues after the match, so replacement text is never
re-scanned. -/
def applyTemplateGo (content : LlmsTxtContent) :
    Nat → List Char → List Char
  | _, [] => []
  | 0, l => l
  | fuel + 1, x :: xs =>
    match matchSlotAt (x :: xs) with
    | some p => renderSlot p.1 content ++ applyTemplateGo content fuel p.2
    | none => x :: applyTemplateGo content fuel xs

/-- `applyTemplate`: replace every slot of the template. -/
def applyTemplate (template : List Char) (content : LlmsTxtContent) :
    List Char :=
  applyTemplateGo content template.length template

/-! ### Scanner lemmas -/

theorem findSlotsGo_cons_none (n : Nat) (x : Char) (xs : List Char)
    (h : matchSlotAt (x :: xs) = none) :
    findSlotsGo (n + 1) (x :: xs) = findSlotsGo n xs := by
  rw [findSlotsGo, h]

theorem findSlotsGo_cons_some (n : Nat) (x : Char) (xs tok rest : List Char)
    (h : matchSlotAt (x :: xs) = some (tok, rest)) :
    findSlotsGo (n + 1) (x :: xs) = tok :: findSlotsGo n rest := by
  rw [findSlotsGo, h]

theorem applyTemplateGo_cons_none (content : LlmsTxtContent) (n : Nat)
    (x : Char) (xs : List Char) (h : matchSlotAt (x :: xs) = none) :
    applyTemplateGo content (n + 1) (x :: xs)
      = x :: applyTemplateGo content n xs := by
  rw [applyTemplateGo, h]

theorem applyTemplateGo_of_no_slots (content : LlmsTxtContent) :
    ∀ (n : Nat) (l : List Char), l.length ≤ n → findSlotsGo n l = []
      → applyTemplateGo content n l = l := by
  intro n
  induction n with
  | zero =>
    intro l hl _
    cases l with
    | nil => rfl
    | cons x xs => simp at hl
  | succ m ih =>
    intro l hl hf
    cases l with
    | nil => rfl
    | cons x xs =>
      cases hm : matchSlotAt (x :: xs) with
      | some p =>
        rw [findSlotsGo_cons_some m x xs p.1 p.2 (by rw [hm])] at hf
        cases hf
      | none =>
        rw [findSlotsGo_cons_none m x xs hm] at hf
        rw [applyTemplateGo_cons_none content m x xs hm,
          ih xs (Nat.le_of_succ_le_succ hl) hf]

/-- C5 helper content: one section whose displayName contains literal slot
syntax, so its rendering substitutes text that looks like a placeholder. -/
def exampleContentC5 : LlmsTxtContent :=
  { declarations := [],
    header := { description := [], features := [], name := [] },
    quickReference := [],
    sections := [{ displayName := str ("\x7b\x7bheader\x7d\x7d"),
                   documents := [], name := str ("X"), order := 0 }] }

/-- C5: applyTemplate is a single left-to-right scan whose substituted
values are never re-scanned: a template with no slot syntax is returned
unchanged (idempotence on already-substituted output), and a replacement
value that itself contains slot syntax is left as literal text in the
output of the pass, as the third conjunct exhibits. -/
theorem claim_C5_single_pass :
    (∀ (content : LlmsTxtContent) (s : List Char),
      findSlots s = [] → applyTemplate s content = s)
    ∧ applyTemplate (str ("\x7b\x7bsection:X\x7d\x7d")) exampleContentC5
        = str ("## \x7b\x7bheader\x7d\x7d")
    ∧ findSlots (str ("## \x7b\x7bheader\x7d\x7d")) = [str ("header")] := by
  refine ⟨?_, by decide, by decide⟩
  intro content s h
  exact applyTemplateGo_of_no_slots content s.length s (le_refl _) h

/-- Witness for C5 at a concrete slot-free template. -/
theorem claim_C5_witness :
    applyTemplate (str ("plain text")) exampleContentC5 = str ("plain text") :=
  (claim_C5_single_pass).1 exampleContentC5 (str ("plain text")) (by decide)

/-! ### renderSlot behaviour -/

theorem find?_eq_some_of_unique {α : Type} {p : α → Bool} {l : List α} {a : α}
    (hmem : a ∈ l) (hp : p a = true)
    (huniq : ∀ x ∈ l, p x = true → x = a) :
    l.find? p = some a := by
  induction l with
  | nil => cases hmem
  | cons b l ih =>
    by_cases hb : p b = true
    · rw [List.find?_cons_of_pos _ hb, huniq b (List.mem_cons_self b l) hb]
    · rw [List.find?_cons_of_neg _ (by simp [hb])]
      rcases List.mem_cons.mp hmem with h | h
      · subst h; exact absurd hp hb
      · exact ih h (fun x hx hpx => huniq x (List.mem_cons_of_mem _ hx) hpx)

theorem sectionSlot_ne (X w : List Char) (hw : w.take 8 ≠ str ("section:")) :
    str ("section:") ++ X ≠ w :=
  fun h => hw (by
    rw [← h, show (8 : Nat) = (str ("section:")).length from rfl, List.take_left])

/-- C6: renderSlot never fails a render.  A section slot resolves to the
unique section whose name or displayName equals the remainder of the
token; with no matching section it renders an inline not-found comment;
a token that is none of the known slots renders an inline unknown-slot
comment; and the template A-unknown-slot-B renders to A, the inline
comment, and B, for every content bundle, without any failure. -/
theorem claim_C6_render_slot :
    (∀ (content : LlmsTxtContent) (X : List Char) (sec : Section),
      sec ∈ content.sections
      → (sec.name = X ∨ sec.displayName = X)
      → (∀ s ∈ content.sections, (s.name = X ∨ s.displayName = X) → s = sec)
      → renderSlot (str ("section:") ++ X) content = renderSection sec)
    ∧ (∀ (content : LlmsTxtContent) (X : List Char),
      (∀ s ∈ content.sections, s.name ≠ X ∧ s.displayName ≠ X)
      → renderSlot (str ("section:") ++ X) content
          = str ("<!-- Section \"") ++ X ++ str ("\" not found -->"))
    ∧ (∀ (content : LlmsTxtContent) (slot : List Char),
      slot ≠ str ("declarations") → slot ≠ str ("header")
      → slot ≠ str ("quickReference") → slot ≠ str ("sections")
      → (str ("section:")).isPrefixOf slot = false
      → renderSlot slot content = str ("<!-- Unknown slot: ") ++ slot ++ str (" -->"))
    ∧ (∀ content : LlmsTxtContent,
      applyTemplate (str ("A\x7b\x7bunknown\x7d\x7dB")) content
        = str ("A<!-- Unknown slot: unknown -->B")) := by
  have hpre : ∀ X : List Char,
      (str ("section:")).isPrefixOf (str ("section:") ++ X) = true :=
    fun X => (isPrefixOf_true_iff _ _).mpr ⟨X, rfl⟩
  have hdrop : ∀ X : List Char, (str ("section:") ++ X).drop 8 = X := fun X => by
    rw [show (8 : Nat) = (str ("section:")).length from rfl, List.drop_left]
  refine ⟨?_, ?_, ?_, fun content => rfl⟩
  · intro content X sec hmem hpX huniq
    have hfind : content.sections.find?
        (fun s => s.name == X || s.displayName == X) = some sec := by
      apply find?_eq_some_of_unique hmem
      · rcases hpX with h | h <;> simp [h]
      · intro x hx hpx
        exact huniq x hx (by simpa using hpx)
    rw [renderSlot, if_neg (sectionSlot_ne X _ (by decide)),
      if_neg (sectionSlot_ne X _ (by decide)),
      if_neg (sectionSlot_ne X _ (by decide)),
      if_neg (sectionSlot_ne X _ (by decide)), if_pos (hpre X)]
    simp only [hdrop X]
    rw [hfind]
  · intro content X hnone
    have hfind : content.sections.find?
        (fun s => s.name == X || s.displayName == X) = none := by
      rw [List.find?_eq_none]
      intro x hx
      simp [(hnone x hx).1, (hnone x hx).2]
    rw [renderSlot, if_neg (sectionSlot_ne X _ (by decide)),
      if_neg (sectionSlot_ne X _ (by decide)),
      if_neg (sectionSlot_ne X _ (by decide)),
      if_neg (sectionSlot_ne X _ (by decide)), if_pos (hpre X)]
    simp only [hdrop X]
    rw [hfind]
  · intro content slot h1 h2 h3 h4 h5
    rw [renderSlot, if_neg h1, if_neg h2, if_neg h3, if_neg h4,
      if_neg (show ¬ ((str ("section:")).isPrefixOf slot = true)
        from fun hc => by rw [h5] at hc; cases hc)]

/-- A content bundle with nothing in it, for concrete instantiations. -/
def emptyContent : LlmsTxtContent :=
  { declarations := [],
    header := { description := [], features := [], name := [] },
    quickReference := [], sections := [] }

/-- Witness for C6: an unrecognized token renders the inline comment. -/
theorem claim_C6_witness :
    renderSlot (str ("bogus")) emptyContent
      = str ("<!-- Unknown slot: bogus -->") :=
  (claim_C6_render_slot).2.2.1 emptyContent (str ("bogus"))
    (by decide) (by decide) (by decide) (by decide) (by decide)

/-! ### C9: only word-shaped tokens are slots -/

theorem wordRun_parts (l : List Char) : (wordRun l).1 ++ (wordRun l).2 = l := by
  induction l with
  | nil => rfl
  | cons x xs ih =>
    by_cases hx : isWordChar x = true
    · simp [wordRun, hx, ih]
    · simp [wordRun, hx]

theorem wordRun_append_nonword (l t : List Char)
    (ht : ∀ c r, t = c :: r → isWordChar c = false) :
    wordRun (l ++ t) = ((wordRun l).1, (wordRun l).2 ++ t) := by
  induction l with
  | nil =>
    cases t with
    | nil => rfl
    | cons c r => simp [wordRun, ht c r rfl]
  | cons x xs ih =>
    by_cases hx : isWordChar x = true
    · simp [wordRun, hx, ih]
    · simp [wordRun, hx]

theorem matchSlotAt_nil : matchSlotAt [] = none := rfl

theorem matchSlotAt_shape (s : List Char) (h : ¬ matchSlotAt s = none) :
    ∃ s', s = '\x7b' :: '\x7b' :: s' := by
  match s with
  | [] => exact absurd rfl h
  | [c] => exact absurd rfl h
  | c1 :: c2 :: s' =>
    by_cases hb : c1 = '\x7b' ∧ c2 = '\x7b'
    · exact ⟨s', by rw [hb.1, hb.2]⟩
    · exact absurd (by rw [matchSlotAt, if_neg hb]) h

theorem expectClose_cons_ne (c : Char) (r : List Char) (hc : c ≠ '\x7d') :
    expectClose (c :: r) = none := by
  cases r with
  | nil => rfl
  | cons c2 r2 => rw [expectClose, if_neg (fun hand => hc hand.1)]

/-- The closing braces appended after a non-slot-shaped inner text never
complete a slot match at position zero. -/
theorem matchSlotAt_wrapped_eq_none (inner : List Char)
    (_hl : '\x7b' ∉ inner) (hr : '\x7d' ∉ inner)
    (htok : isSlotToken inner = false) :
    matchSlotAt ('\x7b' :: '\x7b' :: (inner ++ ['\x7d', '\x7d'])) = none := by
  have hclose : ∀ (c : Char) (r : List Char),
      ['\x7d', '\x7d'] = c :: r → isWordChar c = false := by
    intro c r h
    injection h with h1 _
    rw [← h1]
    decide
  have hw := wordRun_append_nonword inner ['\x7d', '\x7d'] hclose
  rw [matchSlotAt, if_pos ⟨rfl, rfl⟩]
  simp only [hw]
  by_cases hw1 : (wordRun inner).1 = []
  · simp [hw1]
  · rw [if_neg hw1]
    cases hr1 : (wordRun inner).2 with
    | nil =>
      exfalso
      rw [isSlotToken] at htok
      simp only [hr1, if_neg hw1] at htok
      cases htok
    | cons c r1 =>
      have hcmem : c ∈ inner := by
        rw [← wordRun_parts inner, hr1]
        simp
      have hcrb : c ≠ '\x7d' := fun h => hr (h ▸ hcmem)
      rw [List.cons_append, closeSlot, expectClose_cons_ne c _ hcrb]
      by_cases hcc : c = ':'
      · rw [if_pos hcc]
        have hw2 := wordRun_append_nonword r1 ['\x7d', '\x7d'] hclose
        simp only [hw2]
        by_cases hw2e : (wordRun r1).1 = []
        · simp [hw2e]
        · rw [if_neg hw2e]
          cases hr2 : (wordRun r1).2 with
          | nil =>
            exfalso
            rw [isSlotToken] at htok
            simp only [hr1, if_neg hw1, if_pos hcc, hr2, if_neg hw2e] at htok
            cases htok
          | cons d r2 =>
            have hdmem : d ∈ inner := by
              have hd1 : d ∈ r1 := by
                rw [← wordRun_parts r1, hr2]
                simp
              rw [← wordRun_parts inner, hr1]
              simp [hd1]
            have hdrb : d ≠ '\x7d' := fun h => hr (h ▸ hdmem)
            rw [List.cons_append, expectClose_cons_ne d _ hdrb]
      · rw [if_neg hcc]

theorem findSlotsGo_eq_nil_of_suffix (n : Nat) :
    ∀ l : List Char, (∀ s : List Char, s <:+ l → matchSlotAt s = none)
      → findSlotsGo n l = [] := by
  induction n with
  | zero => intro l _; cases l <;> rfl
  | succ m ih =>
    intro l h
    cases l with
    | nil => rfl
    | cons x xs =>
      rw [findSlotsGo_cons_none m x xs (h _ (List.suffix_refl _))]
      exact ih xs (fun s hs => h s (hs.trans (List.suffix_cons x xs)))

theorem applyTemplateGo_eq_self_of_suffix (content : LlmsTxtContent) (n : Nat) :
    ∀ l : List Char, (∀ s : List Char, s <:+ l → matchSlotAt s = none)
      → applyTemplateGo content n l = l := by
  induction n with
  | zero => intro l _; cases l <;> rfl
  | succ m ih =>
    intro l h
    cases l with
    | nil => rfl
    | cons x xs =>
      rw [applyTemplateGo_cons_none content m x xs (h _ (List.suffix_refl _))]
      rw [ih xs (fun s hs => h s (hs.trans (List.suffix_cons x xs)))]

theorem c9_suffix_none (inner : List Char)
    (hl : '\x7b' ∉ inner) (hr : '\x7d' ∉ inner)
    (htok : isSlotToken inner = false) :
    ∀ s, s <:+ ('\x7b' :: '\x7b' :: (inner ++ ['\x7d', '\x7d']))
      → matchSlotAt s = none := by
  intro s hs
  by_contra hne
  obtain ⟨s', rfl⟩ := matchSlotAt_shape s hne
  obtain ⟨pre, hpre⟩ := hs
  have hbrace : ¬ '\x7b' ∈ inner ++ ['\x7d', '\x7d'] := by
    intro hm
    rcases List.mem_append.mp hm with h | h
    · exact hl h
    · simp at h
  cases pre with
  | nil =>
    rw [List.nil_append] at hpre
    injection hpre with h1 h2
    injection h2 with h3 h4
    apply hne
    rw [h4]
    exact matchSlotAt_wrapped_eq_none inner hl hr htok
  | cons p1 pre1 =>
    cases pre1 with
    | nil =>
      rw [List.cons_append, List.nil_append] at hpre
      injection hpre with h1 h2
      injection h2 with h3 h4
      apply hbrace
      rw [← h4]
      exact List.mem_cons_self _ _
    | cons p2 pre2 =>
      rw [List.cons_append, List.cons_append] at hpre
      injection hpre with h1 h2
      injection h2 with h3 h4
      apply hbrace
      rw [← h4]
      simp

/-- C9: the template engine recognizes only tokens of the form word or
word-colon-word between double braces; any other brace-delimited text is
not a slot at all: it is reported by findSlots as no slot and left in the
applyTemplate output as literal text, neither substituted nor replaced by
an unknown-slot comment. -/
theorem claim_C9_slot_shape :
    (∀ inner : List Char, '\x7b' ∉ inner → '\x7d' ∉ inner
      → isSlotToken inner = false
      → findSlots ('\x7b' :: '\x7b' :: (inner ++ ['\x7d', '\x7d'])) = []
        ∧ ∀ content : LlmsTxtContent,
          applyTemplate ('\x7b' :: '\x7b' :: (inner ++ ['\x7d', '\x7d'])) content
            = '\x7b' :: '\x7b' :: (inner ++ ['\x7d', '\x7d']))
    ∧ findSlots (str ("\x7b\x7bsection:Getting Started\x7d\x7d")) = []
    ∧ (∀ content : LlmsTxtContent,
      applyTemplate (str ("\x7b\x7b header \x7d\x7d")) content
        = str ("\x7b\x7b header \x7d\x7d")) := by
  refine ⟨?_, by decide, fun content => rfl⟩
  intro inner hl hr htok
  have hall := c9_suffix_none inner hl hr htok
  constructor
  · exact findSlotsGo_eq_nil_of_suffix _ _ hall
  · intro content
    exact applyTemplateGo_eq_self_of_suffix content _ _ hall

/-- Witness for C9 at the concrete non-word inner text a space b. -/
theorem claim_C9_witness :
    findSlots ('\x7b' :: '\x7b' :: (str ("a b") ++ ['\x7d', '\x7d'])) = [] :=
  ((claim_C9_slot_shape).1 (str ("a b")) (by decide) (by decide) (by decide)).1

/-! ### Section discovery

The JavaScript Map preserves insertion order; it is modelled by an
association list where a new category is appended at the end and a known
category accumulates documents in place.  `String.prototype.localeCompare`
is host behaviour and is passed in as an integer comparator `lc`;
`Array.prototype.sort` is a stable comparator sort, modelled by insertion
sort that keeps earlier elements before later compare-equal ones. -/

/-- `LlmsTxtSectionConfig` of src/options.ts. -/
structure LlmsTxtSectionConfig where
  displayName : List Char
  order : Int
deriving DecidableEq

/-- Key lookup in the user section configuration object. -/
def lookupCfg (cfg : List (List Char × LlmsTxtSectionConfig)) (k : List Char) :
    Option LlmsTxtSectionConfig :=
  (cfg.find? (fun p => p.1 == k)).map (fun p => p.2)

/-- The insertion-ordered category map. -/
abbrev SectionMap := List (List Char × List DocumentInfo)

/-- Add one document under its category, preserving insertion order. -/
def addDoc (m : SectionMap) (cat : List Char) (d : DocumentInfo) : SectionMap :=
  match m with
  | [] => [(cat, [d])]
  | (k, ds) :: rest =>
    if k = cat then (k, ds ++ [d]) :: rest else (k, ds) :: addDoc rest cat d

/-- Stable insertion for the comparator sort: the new element passes every
earlier element that compares strictly below it and lands before the first
element that does not. -/
def insertCmp {α : Type} (cmp : α → α → Int) (a : α) : List α → List α
  | [] => [a]
  | b :: l => if cmp b a < 0 then b :: insertCmp cmp a l else a :: b :: l

/-- The stable comparator sort of `Array.prototype.sort`. -/
def jsSortBy {α : Type} (cmp : α → α → Int) (l : List α) : List α :=
  l.foldr (insertCmp cmp) []

/-- The shared tail of both discovery functions (src/generator.ts lines
248-263 and 319-334): walk the category map in insertion order, attach
the configured displayName and order when the category is configured and
otherwise the category name and an auto-incrementing order starting at
1000, sort the documents of each section by title with the locale
comparator, and finally sort the sections by order. -/
def assignOrders (lc : List Char → List Char → Int) :
    SectionMap → List (List Char × LlmsTxtSectionConfig) → Int → List Section
  | [], _, _ => []
  | (category, documents) :: rest, cfg, autoOrder =>
    match lookupCfg cfg category with
    | some c =>
      { displayName := c.displayName,
        documents := jsSortBy (fun a b => lc a.title b.title) documents,
        name := category, order := c.order }
        :: assignOrders lc rest cfg autoOrder
    | none =>
      { displayName := category,
        documents := jsSortBy (fun a b => lc a.title b.title) documents,
        name := category, order := autoOrder }
        :: assignOrders lc rest cfg (autoOrder + 1)

/-- Order assignment followed by the section sort. -/
def buildSections (lc : List Char → List Char → Int) (m : SectionMap)
    (cfg : List (List Char × LlmsTxtSectionConfig)) : List Section :=
  jsSortBy (fun a b => a.order - b.order) (assignOrders lc m cfg 1000)

/-- `titleToUrlPath` (src/generator.ts lines 156-162): the four
substitutions applied in source order. -/
def replaceChar (c : Char) (rep : List Char) (l : List Char) : List Char :=
  l.flatMap (fun x => if x = c then rep else [x])

/-- Fuelled global substring replacement, scanning left to right; the
fuel is the input length, which bounds the number of steps. -/
def replaceSubGo (pat rep : List Char) : Nat → List Char → List Char
  | _, [] => []
  | 0, l => l
  | fuel + 1, x :: xs =>
    if pat.isPrefixOf (x :: xs) then
      rep ++ replaceSubGo pat rep fuel ((x :: xs).drop pat.length)
    else x :: replaceSubGo pat rep fuel xs

/-- `s.replace(pat, rep)` with a global pattern. -/
def replaceSub (pat rep l : List Char) : List Char :=
  replaceSubGo pat rep l.length l

/-- Title-to-URL-path conversion of the disk discovery path. -/
def titleToUrlPath (title : List Char) : List Char :=
  replaceChar ' ' [Char.ofNat 95]
    (replaceSub (str (" & ")) (str ("___"))
      (replaceChar (Char.ofNat 47) [Char.ofNat 95]
        (replaceChar (Char.ofNat 64) (str ("-I_")) title)))

/-- `path.basename`: the final path segment after the last slash. -/
def basenameOf (p : List Char) : List Char :=
  (p.reverse.takeWhile (fun c => !(c == Char.ofNat 47))).reverse

/-- The title and category gate of the disk discovery loop: both fields
must be present and non-empty (the JavaScript truthiness test). -/
def frontTitleCat (content : List Char) : Option (List Char × List Char) :=
  match extractFrontmatter content with
  | some fm =>
    match fm.title, fm.category with
    | some t, some c => if t = [] ∨ c = [] then none else some (t, c)
    | some _, none => none
    | none, _ => none
  | none => none

/-- One iteration of the loop of `discoverSections` (src/generator.ts
lines 284-317): skip non-markdown paths, skip documents without a truthy
title and category, skip the aggregator file all.md, and otherwise add
the document under its category with the synthesized documents URL.  The
file contents are supplied alongside the paths; an unreadable file in the
source corresponds to an entry that is simply not in the list. -/
def discoverStep (baseUrl : List Char) (m : SectionMap)
    (p : List Char × List Char) : SectionMap :=
  if (str (".md")).isSuffixOf p.1 then
    match frontTitleCat p.2 with
    | some tc =>
      if basenameOf p.1 = str ("all.md") then m
      else
        addDoc m tc.2
          { category := tc.2,
            path := baseUrl ++ str ("/documents/")
              ++ titleToUrlPath tc.1 ++ str ("/"),
            title := tc.1 }
    | none => m
  else m

/-- `discoverSections` (src/generator.ts lines 277-335), the deprecated
disk-reading path. -/
def discoverSections (lc : List Char → List Char → Int)
    (projectDocuments : List (List Char × List Char))
    (sectionConfig : List (List Char × LlmsTxtSectionConfig))
    (baseUrl : List Char) : List Section :=
  buildSections lc (projectDocuments.foldl (discoverStep baseUrl) []) sectionConfig

/-- Category fallback of the document-model path: the joined, trimmed
`@category` block tag text, else the fixed default category. -/
def docCategoryFallback (doc : DocumentReflection) : List Char :=
  match doc.blockTagContent with
  | some t =>
    let tr := trimChars t
    if tr = [] then str ("Documentation") else tr
  | none => str ("Documentation")

/-- Category of a document reflection (src/generator.ts lines 193-222):
a non-empty frontmatter category string wins, else the block tag, else
the default category. -/
def docCategory (doc : DocumentReflection) : List Char :=
  match doc.frontmatterCategory with
  | some c => if c = [] then docCategoryFallback doc else c
  | none => docCategoryFallback doc

mutual

/-- The `collectDocuments` recursion of `discoverSectionsFromProject`
(src/generator.ts lines 188-246): the documents of each reflection are
added in order, then the children are visited depth first. -/
def collectDocuments (router : DocumentReflection → List Char)
    (baseUrl : List Char) : Reflection → SectionMap → SectionMap
  | .mk _ children documents, m =>
    collectList router baseUrl children
      (documents.foldl (fun m doc =>
        addDoc m (docCategory doc)
          { category := docCategory doc,
            path := joinUrl baseUrl (router doc),
            title := doc.name }) m)

def collectList (router : DocumentReflection → List Char)
    (baseUrl : List Char) : List Reflection → SectionMap → SectionMap
  | [], m => m
  | c :: cs, m => collectList router baseUrl cs (collectDocuments router baseUrl c m)

end

/-- `discoverSectionsFromProject` (src/generator.ts lines 179-264), the
preferred document-model path; note that it contains no aggregator-file
exclusion. -/
def discoverSectionsFromProject (lc : List Char → List Char → Int)
    (project : Reflection) (router : DocumentReflection → List Char)
    (sectionConfig : List (List Char × LlmsTxtSectionConfig))
    (baseUrl : List Char) : List Section :=
  buildSections lc (collectDocuments router baseUrl project []) sectionConfig

/-! ### Sort and ordering lemmas -/

theorem insertCmp_mem {α : Type} (cmp : α → α → Int) (a x : α) (l : List α) :
    x ∈ insertCmp cmp a l ↔ x = a ∨ x ∈ l := by
  induction l with
  | nil => simp [insertCmp]
  | cons b l ih =>
    by_cases h : cmp b a < 0
    · rw [insertCmp, if_pos h]
      simp only [List.mem_cons, ih]
      tauto
    · rw [insertCmp, if_neg h]
      simp only [List.mem_cons]

theorem jsSortBy_mem {α : Type} (cmp : α → α → Int) (l : List α) (x : α) :
    x ∈ jsSortBy cmp l ↔ x ∈ l := by
  induction l with
  | nil => simp [jsSortBy]
  | cons b l ih =>
    rw [jsSortBy, List.foldr_cons]
    rw [insertCmp_mem]
    rw [show List.foldr (insertCmp cmp) [] l = jsSortBy cmp l from rfl, ih]
    simp [List.mem_cons, eq_comm]

theorem insertCmp_sorted {α : Type} (cmp : α → α → Int)
    (hasym : ∀ a b, 0 ≤ cmp b a → cmp a b ≤ 0)
    (htrans : ∀ a b c, cmp a b ≤ 0 → cmp b c ≤ 0 → cmp a c ≤ 0)
    (a : α) (l : List α) (hl : l.Pairwise (fun x y => cmp x y ≤ 0)) :
    (insertCmp cmp a l).Pairwise (fun x y => cmp x y ≤ 0) := by
  induction l with
  | nil => simp [insertCmp]
  | cons b l ih =>
    rcases List.pairwise_cons.mp hl with ⟨hb, hl'⟩
    by_cases h : cmp b a < 0
    · rw [insertCmp, if_pos h, List.pairwise_cons]
      refine ⟨?_, ih hl'⟩
      intro x hx
      rcases (insertCmp_mem cmp a x l).mp hx with rfl | hxl
      · exact le_of_lt h
      · exact hb x hxl
    · rw [insertCmp, if_neg h, List.pairwise_cons]
      have hab : cmp a b ≤ 0 := hasym a b (by omega)
      refine ⟨?_, hl⟩
      intro x hx
      rcases List.mem_cons.mp hx with rfl | hxl
      · exact hab
      · exact htrans a b x hab (hb x hxl)

theorem jsSortBy_sorted {α : Type} (cmp : α → α → Int)
    (hasym : ∀ a b, 0 ≤ cmp b a → cmp a b ≤ 0)
    (htrans : ∀ a b c, cmp a b ≤ 0 → cmp b c ≤ 0 → cmp a c ≤ 0)
    (l : List α) :
    (jsSortBy cmp l).Pairwise (fun x y => cmp x y ≤ 0) := by
  induction l with
  | nil => simp [jsSortBy]
  | cons b l ih =>
    rw [jsSortBy, List.foldr_cons]
    exact insertCmp_sorted cmp hasym htrans b _ ih

theorem assignOrders_spec (lc : List Char → List Char → Int)
    (cfg : List (List Char × LlmsTxtSectionConfig)) :
    ∀ (m : SectionMap) (auto : Int) (sec : Section),
      sec ∈ assignOrders lc m cfg auto
      → (∀ c, lookupCfg cfg sec.name = some c
          → sec.order = c.order ∧ sec.displayName = c.displayName)
        ∧ (lookupCfg cfg sec.name = none
          → auto ≤ sec.order ∧ sec.displayName = sec.name)
        ∧ ∃ docs, sec.documents = jsSortBy (fun a b => lc a.title b.title) docs := by
  intro m
  induction m with
  | nil => intro auto sec h; cases h
  | cons p rest ih =>
    intro auto sec h
    obtain ⟨category, documents⟩ := p
    rw [assignOrders] at h
    cases hcfg : lookupCfg cfg category with
    | some c =>
      rw [hcfg] at h
      rcases List.mem_cons.mp h with rfl | hmem
      · refine ⟨?_, ?_, ⟨documents, rfl⟩⟩
        · intro c' hc'
          rw [show lookupCfg cfg category = some c' from hc'] at hcfg
          injection hcfg with hcc
          rw [hcc]
          exact ⟨rfl, rfl⟩
        · intro hn
          rw [show lookupCfg cfg category = none from hn] at hcfg
          cases hcfg
      · exact ih auto sec hmem
    | none =>
      rw [hcfg] at h
      rcases List.mem_cons.mp h with rfl | hmem
      · refine ⟨?_, fun _ => ⟨le_refl _, rfl⟩, ⟨documents, rfl⟩⟩
        intro c' hc'
        rw [show lookupCfg cfg category = some c' from hc'] at hcfg
        cases hcfg
      · obtain ⟨h1, h2, h3⟩ := ih (auto + 1) sec hmem
        exact ⟨h1, fun hn => ⟨le_trans (by omega) (h2 hn).1, (h2 hn).2⟩, h3⟩

/-- A trivially lawful comparator, standing in for a host locale
comparator in concrete instances. -/
def lcZero : List Char → List Char → Int := fun _ _ => 0

/-- C7 scenario: categories discovered in order X, A, Y, B; A and B are
configured with orders 2 and 5; X and Y are unconfigured. -/
def docsC7 : List (List Char × List Char) :=
  [(str ("x.md"), str ("---\ntitle: T1\ncategory: X\n---")),
   (str ("a.md"), str ("---\ntitle: T2\ncategory: A\n---")),
   (str ("y.md"), str ("---\ntitle: T3\ncategory: Y\n---")),
   (str ("b.md"), str ("---\ntitle: T4\ncategory: B\n---"))]

/-- C7 scenario configuration. -/
def cfgC7 : List (List Char × LlmsTxtSectionConfig) :=
  [(str ("A"), { displayName := str ("A docs"), order := 2 }),
   (str ("B"), { displayName := str ("B docs"), order := 5 })]

/-- C7: the returned sections are sorted ascending by order; a configured
category carries its configured order and display name, an unconfigured
category receives an auto-assigned order of at least 1000, and within
every section the documents are sorted by title under the locale
comparator; in the concrete scenario with configured orders 2 and 5 and
unconfigured categories discovered in order X then Y the final section
order is 2, 5, 1000 for X, 1001 for Y. -/
theorem claim_C7_section_ordering :
    (∀ (lc : List Char → List Char → Int) (m : SectionMap)
        (cfg : List (List Char × LlmsTxtSectionConfig)),
      (∀ a b, 0 ≤ lc b a → lc a b ≤ 0)
      → (∀ a b c, lc a b ≤ 0 → lc b c ≤ 0 → lc a c ≤ 0)
      → (buildSections lc m cfg).Pairwise (fun a b => a.order ≤ b.order)
        ∧ (∀ sec ∈ buildSections lc m cfg,
            (∀ c, lookupCfg cfg sec.name = some c
              → sec.order = c.order ∧ sec.displayName = c.displayName)
            ∧ (lookupCfg cfg sec.name = none
              → 1000 ≤ sec.order ∧ sec.displayName = sec.name)
            ∧ sec.documents.Pairwise (fun a b => lc a.title b.title ≤ 0)))
    ∧ (discoverSections lcZero docsC7 cfgC7 []).map (fun s => (s.name, s.order))
        = [(str ("A"), 2), (str ("B"), 5), (str ("X"), 1000), (str ("Y"), 1001)] := by
  refine ⟨?_, by decide⟩
  intro lc m cfg hasym htrans
  constructor
  · have hs := jsSortBy_sorted (fun a b : Section => a.order - b.order)
      (fun a b h => by
        have h' : (0 : Int) ≤ b.order - a.order := h
        show a.order - b.order ≤ 0
        omega)
      (fun a b c h1 h2 => by
        have h1' : a.order - b.order ≤ 0 := h1
        have h2' : b.order - c.order ≤ 0 := h2
        show a.order - c.order ≤ 0
        omega)
      (assignOrders lc m cfg 1000)
    refine hs.imp ?_
    intro a b h
    have h' : a.order - b.order ≤ 0 := h
    omega
  · intro sec hsec
    have hmem : sec ∈ assignOrders lc m cfg 1000 :=
      (jsSortBy_mem _ _ _).mp hsec
    obtain ⟨h1, h2, docs, h3⟩ := assignOrders_spec lc cfg m 1000 sec hmem
    refine ⟨h1, h2, ?_⟩
    rw [h3]
    exact jsSortBy_sorted _
      (fun a b h => hasym a.title b.title h)
      (fun a b c ha hb => htrans a.title b.title c.title ha hb) docs

/-- Witness for C7 with the trivially lawful comparator. -/
theorem claim_C7_witness :
    (buildSections lcZero [] cfgC7).Pairwise (fun a b => a.order ≤ b.order) :=
  ((claim_C7_section_ordering).1 lcZero [] cfgC7
    (fun a b h => by simp [lcZero])
    (fun a b c h1 h2 => by simp [lcZero])).1

/-! ### C8: the aggregator document -/

theorem discoverStep_allmd (baseUrl : List Char) (m : SectionMap)
    (p : List Char × List Char) (h : basenameOf p.1 = str ("all.md")) :
    discoverStep baseUrl m p = m := by
  rw [discoverStep]
  by_cases h1 : (str (".md")).isSuffixOf p.1 = true
  · rw [if_pos h1]
    cases hf : frontTitleCat p.2 with
    | none => rfl
    | some tc => exact if_pos h
  · rw [if_neg h1]

theorem foldl_discoverStep_filter (baseUrl : List Char) :
    ∀ (docs : List (List Char × List Char)) (m : SectionMap),
      (docs.filter
          (fun p => !(basenameOf p.1 == str ("all.md")))).foldl
        (discoverStep baseUrl) m
      = docs.foldl (discoverStep baseUrl) m := by
  intro docs
  induction docs with
  | nil => intro m; rfl
  | cons p rest ih =>
    intro m
    by_cases hb : basenameOf p.1 = str ("all.md")
    · rw [List.filter_cons, if_neg (by simp [hb]), List.foldl_cons,
        discoverStep_allmd baseUrl m p hb]
      exact ih m
    · rw [List.filter_cons, if_pos (by simp [hb]), List.foldl_cons,
        List.foldl_cons]
      exact ih (discoverStep baseUrl m p)

/-- The C8 project for the document-model path: a single document whose
source file is the aggregator all.md (its reflection name is the file
name), carrying ordinary category metadata. -/
def projC8 : Reflection :=
  .mk (str ("proj")) []
    [{ name := str ("all.md"), frontmatterCategory := some (str ("X")),
       blockTagContent := none }]

/-- A fixed router for the C8 project. -/
def routerC8 : DocumentReflection → List Char := fun _ => str ("documents/all/")

/-- C8 counterexample: on the document-model discovery path the
aggregator document is NOT excluded: the project whose only document is
the all.md aggregator yields a section that contains that document, so
the exclusion does not hold on both discovery paths as claimed. -/
theorem claim_C8_counterexample :
    (discoverSectionsFromProject lcZero projC8 routerC8 [] []).map
      (fun s => s.documents.map (fun d => d.title)) = [[str ("all.md")]] := by
  decide

/-- C8 (amended): the raw-frontmatter disk path always excludes the
designated aggregator file (base name all.md) regardless of its metadata:
deleting every all.md entry from its input leaves the output unchanged.
The structured document-model path performs no such exclusion: the
aggregator document is grouped into sections like any other document, as
the second conjunct exhibits. -/
theorem claim_C8_aggregator_exclusion :
    (∀ (lc : List Char → List Char → Int)
        (docs : List (List Char × List Char))
        (cfg : List (List Char × LlmsTxtSectionConfig)) (baseUrl : List Char),
      discoverSections lc
          (docs.filter (fun p => !(basenameOf p.1 == str ("all.md"))))
          cfg baseUrl
        = discoverSections lc docs cfg baseUrl)
    ∧ (discoverSectionsFromProject lcZero projC8 routerC8 [] []).map
        (fun s => (s.name, s.documents.map (fun d => d.title)))
      = [(str ("X"), [str ("all.md")])] := by
  refine ⟨?_, by decide⟩
  intro lc docs cfg baseUrl
  rw [discoverSections, discoverSections, foldl_discoverStep_filter]

end LlmsTxt
